import Mathlib

/-!
# Verification of the open-whisper native shell

Shallow embedding of the Rust sources under `src-tauri/src/` (`injection.rs`,
`shortcuts.rs`, `tray.rs`, `lib.rs`) together with proofs about the embedded
definitions.  Fallible library calls (arboard, enigo, the global-shortcut
plugin, tauri menu construction) are modelled by `Except String Unit` values
supplied by an environment record; the observable mutable state (clipboard
content, the `ENIGO` lazy singleton, the checked flags of the language menu
items) is passed explicitly.
-/

namespace OpenWhisper

/-! ## Text injector — `src-tauri/src/injection.rs`

`static ENIGO: Mutex<Option<Enigo>>` is modelled as an `Option Unit` field of
the state (the `Enigo` handle itself carries no observable data here).  Mutex
poisoning cannot arise in this sequential model (it would require a panic
while the lock is held), so the `Mutex poisoned` arm of `get_enigo` has no
counterpart.  The two `thread::sleep` calls have no observable effect in the
sequential model; they reappear as explicit steps in the interleaving model
further down. -/

/-- Results of the two fallible arboard calls made by `inject_text`:
`Clipboard::new()` and `Clipboard::set_text(text)`. -/
structure ClipboardEnv where
  newResult : Except String Unit
  setTextResult : Except String Unit

/-- Results of the fallible enigo calls: `Enigo::new(&Settings::default())`
and the three `key` calls (Ctrl press, 'v' click, Ctrl release). -/
structure EnigoEnv where
  newResult : Except String Unit
  pressCtrl : Except String Unit
  clickV : Except String Unit
  releaseCtrl : Except String Unit

/-- Observable state of `injection.rs`: the text content of the system
clipboard and the contents of the `ENIGO` singleton. -/
structure InjState where
  clipboardText : Option String
  enigo : Option Unit
  deriving DecidableEq

/-- The three keystroke-synthesis steps performed by `inject_text`
(`Key::Control` press, `Key::Unicode('v')` click, `Key::Control` release). -/
inductive KeyStep
  | pressCtrl
  | clickV
  | releaseCtrl
  deriving DecidableEq

/-- `get_enigo` (injection.rs lines 9–17): lock `ENIGO`; if the singleton is
`None`, initialize it via `Enigo::new`, propagating an initialization failure
as `Failed to init enigo: …` and leaving the singleton `None`. -/
def get_enigo (env : EnigoEnv) (st : InjState) : Except String InjState :=
  match st.enigo with
  | some _ => Except.ok st
  | none =>
    match env.newResult with
    | Except.error e => Except.error ("Failed to init enigo: " ++ e)
    | Except.ok _ => Except.ok { st with enigo := some () }

/-- `inject_text` (injection.rs lines 20–50).  Returns the command result, the
final observable state, and the list of keystroke-synthesis steps that were
actually performed (a failing `key` call performs no step and aborts the
rest). -/
def inject_text (cenv : ClipboardEnv) (eenv : EnigoEnv) (text : String)
    (st : InjState) : Except String Unit × InjState × List KeyStep :=
  match cenv.newResult with
  | Except.error e => (Except.error ("Failed to open clipboard: " ++ e), st, [])
  | Except.ok _ =>
    match cenv.setTextResult with
    | Except.error e => (Except.error ("Failed to set clipboard: " ++ e), st, [])
    | Except.ok _ =>
      let st1 : InjState := { st with clipboardText := some text }
      -- thread::sleep(Duration::from_millis(5))
      match get_enigo eenv st1 with
      | Except.error e => (Except.error e, st1, [])
      | Except.ok st2 =>
        match eenv.pressCtrl with
        | Except.error e => (Except.error ("Ctrl press failed: " ++ e), st2, [])
        | Except.ok _ =>
          match eenv.clickV with
          | Except.error e =>
            (Except.error ("V click failed: " ++ e), st2, [KeyStep.pressCtrl])
          | Except.ok _ =>
            match eenv.releaseCtrl with
            | Except.error e =>
              (Except.error ("Ctrl release failed: " ++ e), st2,
                [KeyStep.pressCtrl, KeyStep.clickV])
            | Except.ok _ =>
              -- thread::sleep(Duration::from_millis(10))
              (Except.ok (), st2,
                [KeyStep.pressCtrl, KeyStep.clickV, KeyStep.releaseCtrl])

/-- The `ClipboardUnavailable` class of errors: the messages `inject_text`
produces when opening or writing the clipboard fails. -/
def IsClipboardErr (msg : String) : Prop :=
  (∃ e, msg = "Failed to open clipboard: " ++ e) ∨
  (∃ e, msg = "Failed to set clipboard: " ++ e)

/-- Claim C3: whenever the clipboard cannot be acquired (`Clipboard::new`
fails) or written (`set_text` fails), `inject_text` returns a
clipboard-class error, the state — clipboard content and the synthesis
singleton — is unchanged, and no keystroke-synthesis step is performed. -/
theorem inject_text_clipboard_failure
    (cenv : ClipboardEnv) (eenv : EnigoEnv) (text : String) (st : InjState)
    (h : (∃ e, cenv.newResult = Except.error e) ∨
      (cenv.newResult = Except.ok () ∧ ∃ e, cenv.setTextResult = Except.error e)) :
    ∃ msg, inject_text cenv eenv text st = (Except.error msg, st, []) ∧
      IsClipboardErr msg := by
  rcases h with ⟨e, he⟩ | ⟨hok, e, he⟩
  · exact ⟨_, by simp [inject_text, he], Or.inl ⟨e, rfl⟩⟩
  · exact ⟨_, by simp [inject_text, hok, he], Or.inr ⟨e, rfl⟩⟩

/-- Witness for C3 at a concrete failing clipboard environment. -/
theorem inject_text_clipboard_failure_witness :
    ∃ msg,
      inject_text ⟨Except.error "denied", Except.ok ()⟩
          ⟨Except.ok (), Except.ok (), Except.ok (), Except.ok ()⟩
          "hello" ⟨some "old", none⟩ =
        (Except.error msg, ⟨some "old", none⟩, []) ∧ IsClipboardErr msg :=
  inject_text_clipboard_failure _ _ _ _ (Or.inl ⟨"denied", rfl⟩)

/-- Claim C5: for every string (the empty string included), if `inject_text`
returns successfully then the clipboard content immediately after the call is
exactly the injected text, and it stays there (the function never resets
it). -/
theorem inject_text_success_clipboard
    (cenv : ClipboardEnv) (eenv : EnigoEnv) (text : String) (st : InjState)
    (h : (inject_text cenv eenv text st).1 = Except.ok ()) :
    (inject_text cenv eenv text st).2.1.clipboardText = some text := by
  obtain ⟨cn, cs⟩ := cenv
  obtain ⟨en, ep, ec, er⟩ := eenv
  obtain ⟨clip, enig⟩ := st
  cases cn <;> cases cs <;> cases enig <;> cases en <;> cases ep <;> cases ec <;>
      cases er <;> simp_all [inject_text, get_enigo]

/-- Witness for C5 at the empty string with an all-succeeding environment. -/
theorem inject_text_success_clipboard_witness :
    (inject_text ⟨Except.ok (), Except.ok ()⟩
        ⟨Except.ok (), Except.ok (), Except.ok (), Except.ok ()⟩
        "" ⟨none, none⟩).2.1.clipboardText = some "" :=
  inject_text_success_clipboard _ _ _ _ rfl

/-- Claim C6: the synthesis handle is initialized lazily and at most once —
if the singleton is already populated, `get_enigo` returns it untouched
without consulting `Enigo::new`; if it is empty and initialization fails, the
error is the `BackendInitFailed` message and the singleton is left `None`
(the returned state is the unchanged input state), so a later call with a
succeeding `Enigo::new` retries and initializes it. -/
theorem get_enigo_lazy_init (env env2 : EnigoEnv) (st : InjState) :
    (st.enigo = some () → get_enigo env st = Except.ok st) ∧
    (st.enigo = none → ∀ e, env.newResult = Except.error e →
      get_enigo env st = Except.error ("Failed to init enigo: " ++ e)) ∧
    (st.enigo = none → env2.newResult = Except.ok () →
      get_enigo env2 st = Except.ok { st with enigo := some () }) := by
  refine ⟨fun h => ?_, fun h e he => ?_, fun h h2 => ?_⟩
  · simp [get_enigo, h]
  · simp [get_enigo, h, he]
  · simp [get_enigo, h, h2]

/-- Witness for C6: a failed initialization leaves the singleton `None`, the
next call with a working backend initializes it, and an already-populated
singleton is returned untouched even when `Enigo::new` would fail. -/
theorem get_enigo_lazy_init_witness :
    (get_enigo ⟨Except.error "boom", Except.ok (), Except.ok (), Except.ok ()⟩
        ⟨none, none⟩ = Except.error ("Failed to init enigo: " ++ "boom")) ∧
    (get_enigo ⟨Except.ok (), Except.ok (), Except.ok (), Except.ok ()⟩
        ⟨none, none⟩ = Except.ok ⟨none, some ()⟩) ∧
    (get_enigo ⟨Except.error "boom", Except.ok (), Except.ok (), Except.ok ()⟩
        ⟨some "x", some ()⟩ = Except.ok ⟨some "x", some ()⟩) :=
  ⟨(get_enigo_lazy_init
      ⟨Except.error "boom", Except.ok (), Except.ok (), Except.ok ()⟩
      ⟨Except.ok (), Except.ok (), Except.ok (), Except.ok ()⟩
      ⟨none, none⟩).2.1 rfl "boom" rfl,
    (get_enigo_lazy_init
      ⟨Except.error "boom", Except.ok (), Except.ok (), Except.ok ()⟩
      ⟨Except.ok (), Except.ok (), Except.ok (), Except.ok ()⟩
      ⟨none, none⟩).2.2 rfl rfl,
    (get_enigo_lazy_init
      ⟨Except.error "boom", Except.ok (), Except.ok (), Except.ok ()⟩
      ⟨Except.ok (), Except.ok (), Except.ok (), Except.ok ()⟩
      ⟨some "x", some ()⟩).1 rfl⟩

/-- Claim C10: if the clipboard open and write both succeeded and
`inject_text` nevertheless returns an error (backend-init failure or any
keystroke failure), the clipboard has already been set to the input text and
the error path does not restore the previous content. -/
theorem inject_text_error_no_restore
    (cenv : ClipboardEnv) (eenv : EnigoEnv) (text : String) (st : InjState)
    (e : String)
    (h1 : cenv.newResult = Except.ok ()) (h2 : cenv.setTextResult = Except.ok ())
    (h3 : (inject_text cenv eenv text st).1 = Except.error e) :
    (inject_text cenv eenv text st).2.1.clipboardText = some text := by
  obtain ⟨cn, cs⟩ := cenv
  obtain ⟨en, ep, ec, er⟩ := eenv
  obtain ⟨clip, enig⟩ := st
  cases enig <;> cases en <;> cases ep <;> cases ec <;> cases er <;>
    simp_all [inject_text, get_enigo]

/-- Witness for C10: backend-init failure after a successful clipboard write
leaves the new text on the clipboard (the prior content `"old"` is not
restored). -/
theorem inject_text_error_no_restore_witness :
    (inject_text ⟨Except.ok (), Except.ok ()⟩
        ⟨Except.error "boom", Except.ok (), Except.ok (), Except.ok ()⟩
        "new" ⟨some "old", none⟩).2.1.clipboardText = some "new" :=
  inject_text_error_no_restore _ _ _ _ ("Failed to init enigo: " ++ "boom")
    rfl rfl rfl

/-! ## Tray controller — `src-tauri/src/tray.rs`

The checked state of the 13 `CheckMenuItem`s is the only mutable data; it is
modelled as a `List (String × Bool)` of (code, checked) pairs, mirroring the
`lang_items : Vec<(String, CheckMenuItem)>` of the source.  `set_checked`
failures are swallowed by the source (`let _ = …`) and the set/get operations
are treated as succeeding, as in the source's sequential use. -/

/-- The `LANGUAGES` catalog (tray.rs lines 7–21). -/
def LANGUAGES : List (String × String) :=
  [("fr", "Français"), ("en", "English"), ("es", "Español"), ("de", "Deutsch"),
    ("it", "Italiano"), ("pt", "Português"), ("nl", "Nederlands"),
    ("pl", "Polski"), ("ru", "Русский"), ("zh", "中文"), ("ja", "日本語"),
    ("ko", "한국어"), ("ar", "العربية")]

/-- `lang_codes` (tray.rs line 48): the catalog codes. -/
def langCodes : List String := LANGUAGES.map Prod.fst

/-- `update_lang_checks` (tray.rs lines 23–27): set each item's checked flag
to `code == selected`. -/
def update_lang_checks (items : List (String × Bool)) (selected : String) :
    List (String × Bool) :=
  items.map (fun p => (p.1, p.1 == selected))

/-- The language items as built by `create_tray` (tray.rs lines 34–40): one
checkable item per catalog entry, checked iff its code is `"fr"`. -/
def initLangItems : List (String × Bool) :=
  LANGUAGES.map (fun p => (p.1, p.1 == "fr"))

/-- Number of checked items. -/
def countChecked (items : List (String × Bool)) : Nat :=
  (items.filter (fun p => p.2)).length

/-- Rust's `payload.trim_matches('"')`: strip every leading and trailing
`'"'` character. -/
def trimQuotes (s : String) : String :=
  String.mk (((s.toList.dropWhile (fun c => c == '"')).reverse.dropWhile
    (fun c => c == '"')).reverse)

/-- Side effects a tray callback can request. -/
inductive TrayEffect
  | emit (name : String) (payload : String)
  | showMainWindow
  | exitApp (code : Nat)
  deriving DecidableEq

/-- The two events that reach the tray controller after creation: a menu
click carrying an item id, and the frontend's `language-changed` notification
carrying a payload. -/
inductive TrayEvent
  | menuClick (id : String)
  | frontendLanguageChanged (payload : String)
  deriving DecidableEq

/-- The `on_menu_event` dispatch (tray.rs lines 55–75): `"open"` shows the
main window, `"quit"` exits, an id contained in `lang_codes` updates the
checks and emits `tray:language-changed`, anything else is ignored. -/
def on_menu_event (items : List (String × Bool)) (id : String) :
    List (String × Bool) × List TrayEffect :=
  if id = "open" then (items, [TrayEffect.showMainWindow])
  else if id = "quit" then (items, [TrayEffect.exitApp 0])
  else if langCodes.contains id then
    (update_lang_checks items id, [TrayEffect.emit "tray:language-changed" id])
  else (items, [])

/-- The `language-changed` listener (tray.rs lines 94–98): trim surrounding
quotes from the payload, update the checks, emit nothing. -/
def on_language_changed (items : List (String × Bool)) (payload : String) :
    List (String × Bool) × List TrayEffect :=
  (update_lang_checks items (trimQuotes payload), [])

/-- One step of the tray controller. -/
def trayStep (items : List (String × Bool)) :
    TrayEvent → List (String × Bool) × List TrayEffect
  | TrayEvent.menuClick id => on_menu_event items id
  | TrayEvent.frontendLanguageChanged p => on_language_changed items p

/-- The checked state after a sequence of events. -/
def runTray (items : List (String × Bool)) (evs : List TrayEvent) :
    List (String × Bool) :=
  evs.foldl (fun its ev => (trayStep its ev).1) items

/-- The last language selection carried by an event, mirroring the dispatch
order of `on_menu_event` and the guard of the listener path. -/
def selStep (sel : String) : TrayEvent → String
  | TrayEvent.menuClick id =>
    if id = "open" then sel
    else if id = "quit" then sel
    else if langCodes.contains id then id
    else sel
  | TrayEvent.frontendLanguageChanged p =>
    if langCodes.contains (trimQuotes p) then trimQuotes p else sel

/-- Counterexample to claim C2 as stated: a `language-changed` notification
whose (quote-trimmed) payload matches no catalog code unchecks every entry,
so after the single event with payload `"\"xx\""` zero entries are checked,
not exactly one. -/
theorem tray_checked_invariant_cex :
    countChecked
      (runTray initLangItems [TrayEvent.frontendLanguageChanged "\"xx\""]) = 0 := by
  decide

/-- Helper: `update_lang_checks` on items whose codes are `langCodes`
produces the characteristic items of the new selection, whatever the old
flags were. -/
theorem update_lang_checks_map (f : String → Bool) (sel : String) :
    update_lang_checks (langCodes.map (fun c => (c, f c))) sel =
      langCodes.map (fun c => (c, c == sel)) := by
  simp [update_lang_checks, List.map_map, Function.comp]

/-- Helper: the checked state reached from the characteristic items of any
selection is the characteristic items of the folded selection, provided every
frontend payload trims to a catalog code. -/
theorem runTray_shape (evs : List TrayEvent) :
    ∀ sel : String,
      (∀ p, TrayEvent.frontendLanguageChanged p ∈ evs →
        langCodes.contains (trimQuotes p) = true) →
      runTray (langCodes.map (fun c => (c, c == sel))) evs =
        langCodes.map (fun c => (c, c == evs.foldl selStep sel)) := by
  induction evs with
  | nil => intro sel _; rfl
  | cons ev evs ih =>
    intro sel h
    have hstep : (trayStep (langCodes.map (fun c => (c, c == sel))) ev).1 =
        langCodes.map (fun c => (c, c == selStep sel ev)) := by
      cases ev with
      | menuClick id =>
        by_cases ho : id = "open"
        · simp [trayStep, on_menu_event, selStep, ho]
        · by_cases hq : id = "quit"
          · simp [trayStep, on_menu_event, selStep, ho, hq]
          · by_cases hc : id ∈ langCodes
            · simp [trayStep, on_menu_event, selStep, ho, hq, hc,
                update_lang_checks_map]
            · simp [trayStep, on_menu_event, selStep, ho, hq, hc]
      | frontendLanguageChanged p =>
        have hc : trimQuotes p ∈ langCodes := by
          simpa using h p (List.mem_cons_self _ _)
        simp [trayStep, on_language_changed, selStep, hc, update_lang_checks_map]
    have htail : ∀ p, TrayEvent.frontendLanguageChanged p ∈ evs →
        langCodes.contains (trimQuotes p) = true :=
      fun p hp => h p (List.mem_cons_of_mem _ hp)
    calc runTray (langCodes.map (fun c => (c, c == sel))) (ev :: evs)
        = runTray (trayStep (langCodes.map (fun c => (c, c == sel))) ev).1 evs := rfl
      _ = runTray (langCodes.map (fun c => (c, c == selStep sel ev))) evs := by
          rw [hstep]
      _ = langCodes.map (fun c => (c, c == evs.foldl selStep (selStep sel ev))) :=
          ih (selStep sel ev) htail
      _ = langCodes.map (fun c => (c, c == (ev :: evs).foldl selStep sel)) := rfl

/-- Helper: a selection drawn from the catalog yields exactly one checked
item, which is the selection itself. -/
theorem countChecked_characteristic (sel : String)
    (h : langCodes.contains sel = true) :
    countChecked (langCodes.map (fun c => (c, c == sel))) = 1 ∧
      (sel, true) ∈ langCodes.map (fun c => (c, c == sel)) := by
  have hm : sel ∈ langCodes := by
    simpa using h
  fin_cases hm <;> exact ⟨by decide, by decide⟩

/-- Helper: `selStep` keeps the selection inside the catalog. -/
theorem selStep_contains (sel : String) (ev : TrayEvent)
    (h : langCodes.contains sel = true) :
    langCodes.contains (selStep sel ev) = true := by
  cases ev with
  | menuClick id =>
    simp only [selStep]
    split
    · exact h
    · split
      · exact h
      · split
        · assumption
        · exact h
  | frontendLanguageChanged p =>
    simp only [selStep]
    split
    · assumption
    · exact h

/-- Helper: folding `selStep` keeps the selection inside the catalog. -/
theorem foldl_selStep_contains (evs : List TrayEvent) :
    ∀ sel : String, langCodes.contains sel = true →
      langCodes.contains (evs.foldl selStep sel) = true := by
  induction evs with
  | nil => exact fun sel h => h
  | cons ev evs ih => exact fun sel h => ih _ (selStep_contains sel ev h)

/-- Claim C2, amended: after tray creation, under every sequence of menu
clicks (any id) and inbound `language-changed` notifications whose
quote-trimmed payload names a catalog language, exactly one language entry is
checked and its code equals the last language selection received (initially
`"fr"`).  An inbound payload outside the catalog instead unchecks every
entry, as the counterexample shows. -/
theorem tray_checked_invariant (evs : List TrayEvent)
    (h : ∀ p, TrayEvent.frontendLanguageChanged p ∈ evs →
      langCodes.contains (trimQuotes p) = true) :
    runTray initLangItems evs =
      langCodes.map (fun c => (c, c == evs.foldl selStep "fr")) ∧
    countChecked (runTray initLangItems evs) = 1 ∧
    (evs.foldl selStep "fr", true) ∈ runTray initLangItems evs := by
  have hinit : initLangItems = langCodes.map (fun c => (c, c == "fr")) := by
    simp [initLangItems, langCodes, List.map_map, Function.comp]
  have hshape := runTray_shape evs "fr" h
  rw [hinit] at *
  have hsel : langCodes.contains (evs.foldl selStep "fr") = true :=
    foldl_selStep_contains evs "fr" (by decide)
  have hchar := countChecked_characteristic _ hsel
  exact ⟨hshape, by rw [hshape]; exact hchar.1, by rw [hshape]; exact hchar.2⟩

/-- Witness for C2 (amended) on the sequence: tray-menu click on `de`, then
an inbound quoted notification for `en`. -/
theorem tray_checked_invariant_witness :
    runTray initLangItems
        [TrayEvent.menuClick "de", TrayEvent.frontendLanguageChanged "\"en\""] =
      langCodes.map (fun c => (c, c ==
        [TrayEvent.menuClick "de",
          TrayEvent.frontendLanguageChanged "\"en\""].foldl selStep "fr")) ∧
    countChecked (runTray initLangItems
      [TrayEvent.menuClick "de", TrayEvent.frontendLanguageChanged "\"en\""]) = 1 ∧
    ([TrayEvent.menuClick "de",
        TrayEvent.frontendLanguageChanged "\"en\""].foldl selStep "fr", true) ∈
      runTray initLangItems
        [TrayEvent.menuClick "de", TrayEvent.frontendLanguageChanged "\"en\""] :=
  tray_checked_invariant _ (by intro p hp; simp at hp; subst hp; decide)

/-- Claim C7: the `language-changed` listener trims surrounding quote
characters from the payload, updates every entry's checked flag to
`code == trimmed payload` (so the quoted payload `"\"de\""` checks exactly
the `de` entry whatever the prior flags were), and emits no effect at all —
in particular it never re-emits `tray:language-changed`. -/
theorem language_changed_listener (checked : String → Bool) (payload : String) :
    (on_language_changed (LANGUAGES.map (fun p => (p.1, checked p.1))) payload).2
        = [] ∧
    (on_language_changed (LANGUAGES.map (fun p => (p.1, checked p.1))) payload).1
        = LANGUAGES.map (fun p => (p.1, p.1 == trimQuotes payload)) ∧
    on_language_changed (LANGUAGES.map (fun p => (p.1, checked p.1))) "\"de\"" =
      (LANGUAGES.map (fun p => (p.1, p.1 == "de")), []) ∧
    trimQuotes "\"de\"" = "de" := by
  refine ⟨rfl, ?_, ?_, by decide⟩
  · simp [on_language_changed, update_lang_checks, List.map_map, Function.comp]
  · have h : trimQuotes "\"de\"" = "de" := by decide
    simp [on_language_changed, update_lang_checks, List.map_map, Function.comp, h]

/-- Claim C9: the catalog has exactly 13 entries with pairwise distinct
codes; immediately after tray creation exactly one entry is checked, namely
`fr`, which is the first catalog entry. -/
theorem language_catalog_spec :
    LANGUAGES.length = 13 ∧ (LANGUAGES.map Prod.fst).Nodup ∧
    countChecked initLangItems = 1 ∧ ("fr", true) ∈ initLangItems ∧
    LANGUAGES.head? = some ("fr", "Français") := by
  refine ⟨rfl, by decide, by decide, by decide, rfl⟩

/-! ## Shortcut registrar — `src-tauri/src/shortcuts.rs` -/

/-- The state reported by the global-shortcut plugin for a hotkey event
(`tauri_plugin_global_shortcut::ShortcutState` has exactly these two
variants; there is no separate repeat state). -/
inductive ShortcutState
  | Pressed
  | Released
  deriving DecidableEq

/-- A notification emitted to the UI layer: event name and optional payload
(`none` models the unit payload `()`). -/
structure Emission where
  name : String
  payload : Option String
  deriving DecidableEq

/-- The `ctrl+shift+d` handler (shortcuts.rs lines 10–18): emit
`shortcut:toggle-dictation` with no payload iff the event state is
`Pressed`. -/
def onToggleDictation : ShortcutState → List Emission
  | ShortcutState.Pressed => [⟨"shortcut:toggle-dictation", none⟩]
  | ShortcutState.Released => []

/-- The `ctrl+shift+t` handler (shortcuts.rs lines 25–33): emit
`shortcut:toggle-transcription` with no payload iff the event state is
`Pressed`. -/
def onToggleTranscription : ShortcutState → List Emission
  | ShortcutState.Pressed => [⟨"shortcut:toggle-transcription", none⟩]
  | ShortcutState.Released => []

/-- Number of `Pressed` transitions in a backend event sequence. -/
def countPressed : List ShortcutState → Nat
  | [] => 0
  | ShortcutState.Pressed :: r => countPressed r + 1
  | ShortcutState.Released :: r => countPressed r

/-- Claim C8: over every backend event sequence, each handler emits its
notification exactly once per `Pressed` transition and never on `Released`
(the plugin reports no other state), and every emission carries no
payload: the emitted list is exactly one payload-free notification per
`Pressed` event. -/
theorem shortcut_handlers_spec (evs : List ShortcutState) :
    evs.flatMap onToggleDictation =
      List.replicate (countPressed evs) ⟨"shortcut:toggle-dictation", none⟩ ∧
    evs.flatMap onToggleTranscription =
      List.replicate (countPressed evs) ⟨"shortcut:toggle-transcription", none⟩ := by
  induction evs with
  | nil => exact ⟨rfl, rfl⟩
  | cons ev evs ih =>
    cases ev <;>
      simp [onToggleDictation, onToggleTranscription, countPressed,
        List.replicate_succ, ih.1, ih.2]

/-! ## Startup — `register_shortcuts` and the `setup` closure in `lib.rs`

`register_shortcuts` calls `.expect(…)` on each registration result: a
registration failure makes it panic with the corresponding message (the
plugin's error appended by `expect` is not modelled), it does not return a
failure value.  `StartupOutcome` records which of the two behaviours
occurs. -/

/-- Outcome of running `register_shortcuts` given the results of the two
`on_shortcut` registrations (`ctrl+shift+d` first, then `ctrl+shift+t`). -/
inductive StartupOutcome
  | completed
  | panicked (msg : String)
  deriving DecidableEq

/-- `register_shortcuts` (shortcuts.rs lines 4–38) as a function of the two
registration results: `.expect` turns the first failing registration into a
panic; otherwise registration completes. -/
def register_shortcuts (rd rt : Except String Unit) : StartupOutcome :=
  match rd with
  | Except.error _ => StartupOutcome.panicked "failed to register Ctrl+Shift+D"
  | Except.ok _ =>
    match rt with
    | Except.error _ => StartupOutcome.panicked "failed to register Ctrl+Shift+T"
    | Except.ok _ => StartupOutcome.completed

/-- Whether a startup outcome is a panic. -/
def StartupOutcome.isPanic : StartupOutcome → Bool
  | StartupOutcome.completed => false
  | StartupOutcome.panicked _ => true

/-- Counterexample to claim C1 as stated: when registering `ctrl+shift+d`
fails (combination already claimed), `register_shortcuts` panics via
`expect` — the outcome is a panic, not a non-panicking failure value. -/
theorem register_shortcuts_cex :
    register_shortcuts (Except.error "hotkey already claimed") (Except.ok ()) =
      StartupOutcome.panicked "failed to register Ctrl+Shift+D" ∧
    (register_shortcuts (Except.error "hotkey already claimed")
      (Except.ok ())).isPanic = true :=
  ⟨rfl, rfl⟩

/-- Claim C1, amended: if registering either global hotkey fails at startup,
`register_shortcuts` deterministically aborts startup with a panic naming the
failed binding (via `expect`) — it neither hangs, continues silently, nor
completes — but the failure surfaces as a panic, not as a non-panicking
failure value. -/
theorem register_shortcuts_aborts (rd rt : Except String Unit)
    (h : (∃ e, rd = Except.error e) ∨ (∃ e, rt = Except.error e)) :
    (register_shortcuts rd rt).isPanic = true ∧
    register_shortcuts rd rt ≠ StartupOutcome.completed := by
  rcases h with ⟨e, he⟩ | ⟨e, he⟩
  · subst he; exact ⟨rfl, by simp [register_shortcuts]⟩
  · subst he
    cases rd with
    | error e2 => exact ⟨rfl, by simp [register_shortcuts]⟩
    | ok u => exact ⟨rfl, by simp [register_shortcuts]⟩

/-- Witness for C1 (amended) at a concrete failing registration. -/
theorem register_shortcuts_aborts_witness :
    (register_shortcuts (Except.error "taken") (Except.ok ())).isPanic = true ∧
    register_shortcuts (Except.error "taken") (Except.ok ()) ≠
      StartupOutcome.completed :=
  register_shortcuts_aborts _ _ (Or.inl ⟨"taken", rfl⟩)

/-! ## Interleaving model of two concurrent `inject_text` calls

Each call, on its success path, performs the observable steps listed in
`CAct` in program order.  The `ENIGO` mutex is acquired at `lockE` (inside
`get_enigo`, i.e. after the clipboard write and the first sleep) and released
at `unlockE`, when the `MutexGuard` is dropped at the end of the function —
after the trailing sleep.  A thread's position is a program counter `0..9`; a
scheduler is a list of thread choices (`false` = first caller, `true` =
second), and scheduling a blocked or finished thread performs nothing. -/

/-- Observable steps of one `inject_text` call, in program order
(injection.rs): `openClip` = `Clipboard::new()` (line 24), `setClip` =
`set_text` (line 26), `sleepPre` = the 5 ms sleep (line 31), `lockE` =
`ENIGO.lock()` inside the `get_enigo()` call (lines 10/34), `press`/`click`/
`release` = the three `key` calls (lines 36–44), `sleepPost` = the 10 ms
sleep (line 47), `unlockE` = the `MutexGuard` drop when the function returns
(line 50). -/
inductive CAct
  | openClip
  | setClip
  | sleepPre
  | lockE
  | press
  | click
  | release
  | sleepPost
  | unlockE
  deriving DecidableEq

/-- Joint state of two concurrent calls: both program counters and the
current holder of the `ENIGO` mutex. -/
structure CState where
  pcA : Nat
  pcB : Nat
  owner : Option Bool
  deriving DecidableEq

/-- Program counter of a thread. -/
def pcOf (s : CState) (t : Bool) : Nat := cond t s.pcB s.pcA

/-- Replace a thread's program counter. -/
def setPc (s : CState) (t : Bool) (p : Nat) : CState :=
  cond t { s with pcB := p } { s with pcA := p }

/-- Replace the mutex holder. -/
def setOwner (s : CState) (o : Option Bool) : CState :=
  ⟨s.pcA, s.pcB, o⟩

/-- One step of thread `t`: execute the action at its program counter if it
is enabled (`lockE` needs the mutex free, `unlockE` is performed by the
holder); return `none` if the thread is blocked or finished. -/
def cstep (s : CState) (t : Bool) : Option (CAct × CState) :=
  match pcOf s t with
  | 0 => some (CAct.openClip, setPc s t 1)
  | 1 => some (CAct.setClip, setPc s t 2)
  | 2 => some (CAct.sleepPre, setPc s t 3)
  | 3 =>
    match s.owner with
    | none => some (CAct.lockE, setOwner (setPc s t 4) (some t))
    | some _ => none
  | 4 => some (CAct.press, setPc s t 5)
  | 5 => some (CAct.click, setPc s t 6)
  | 6 => some (CAct.release, setPc s t 7)
  | 7 => some (CAct.sleepPost, setPc s t 8)
  | 8 =>
    if s.owner = some t then
      some (CAct.unlockE, setOwner (setPc s t 9) none)
    else none
  | _ + 9 => none

/-- Run a schedule, collecting the trace of performed (thread, action)
steps. -/
def crun (s : CState) : List Bool → List (Bool × CAct)
  | [] => []
  | t :: ts =>
    match cstep s t with
    | none => crun s ts
    | some (a, s') => (t, a) :: crun s' ts

/-- The keystroke-synthesis actions. -/
def isSynth : CAct → Bool
  | CAct.press => true
  | CAct.click => true
  | CAct.release => true
  | _ => false

/-- Thread ids of the keystroke-synthesis steps of a trace, in order. -/
def synthOf (tr : List (Bool × CAct)) : List Bool :=
  tr.filterMap (fun p => if isSynth p.2 then some p.1 else none)

/-- Number of adjacent thread switches in a sequence; two blocks of steps
interleave exactly when their thread sequence switches more than once. -/
def switches : List Bool → Nat
  | [] => 0
  | [_] => 0
  | a :: b :: l => (if a = b then 0 else 1) + switches (b :: l)

/-- Both calls at their start, mutex free. -/
def cInit : CState := ⟨0, 0, none⟩

/-- Program counters inside the critical section (have executed `lockE`, not
yet `unlockE`). -/
def InCrit (pc : Nat) : Prop := 4 ≤ pc ∧ pc ≤ 8

instance : DecidablePred InCrit :=
  fun pc => inferInstanceAs (Decidable (4 ≤ pc ∧ pc ≤ 8))

/-- The mutex invariant: the mutex is held by exactly the threads whose
program counter is inside the critical section. -/
def Inv (s : CState) : Prop :=
  (∀ t, s.owner = some t → InCrit (pcOf s t) ∧ ¬ InCrit (pcOf s (!t))) ∧
  (s.owner = none → ¬ InCrit (pcOf s false) ∧ ¬ InCrit (pcOf s true))

theorem pcOf_setPc (s : CState) (t u : Bool) (p : Nat) :
    pcOf (setPc s t p) u = if u = t then p else pcOf s u := by
  cases t <;> cases u <;> simp [pcOf, setPc]

theorem owner_setPc (s : CState) (t : Bool) (p : Nat) :
    (setPc s t p).owner = s.owner := by
  cases t <;> rfl

theorem pcOf_setOwner (s : CState) (o : Option Bool) (t : Bool) :
    pcOf (setOwner s o) t = pcOf s t := by
  cases t <;> rfl

theorem owner_setOwner (s : CState) (o : Option Bool) :
    (setOwner s o).owner = o := rfl

theorem bool_ne_imp (u t : Bool) (h : u ≠ t) : (!u) = t := by
  revert h; cases u <;> cases t <;> decide

theorem crun_cons_none {s : CState} {t : Bool} (ts : List Bool)
    (h : cstep s t = none) : crun s (t :: ts) = crun s ts := by
  simp [crun, h]

theorem crun_cons_some {s s' : CState} {t : Bool} {a : CAct} (ts : List Bool)
    (h : cstep s t = some (a, s')) :
    crun s (t :: ts) = (t, a) :: crun s' ts := by
  simp [crun, h]

theorem synthOf_cons (t : Bool) (a : CAct) (tr : List (Bool × CAct)) :
    synthOf ((t, a) :: tr) =
      if isSynth a then t :: synthOf tr else synthOf tr := by
  cases h : isSynth a <;> simp [synthOf, List.filterMap_cons, h]

theorem switches_cons_self (a : Bool) (l : List Bool) :
    switches (a :: a :: l) = switches (a :: l) := by
  simp [switches]

theorem switches_of_all_eq (c : Bool) :
    ∀ l : List Bool, (∀ x ∈ l, x = c) → switches l = 0
  | [], _ => rfl
  | [_], _ => rfl
  | a :: b :: l, h => by
    have ha : a = c := h a (by simp)
    have hb : b = c := h b (by simp)
    have ihr := switches_of_all_eq c (b :: l)
      (fun x hx => h x (List.mem_cons_of_mem _ hx))
    subst ha hb
    rw [← switches_cons_self] at ihr
    simpa [switches] using ihr

theorem switches_cons_of_zero (a : Bool) (l : List Bool)
    (h : switches l = 0) : switches (a :: l) ≤ 1 := by
  cases l with
  | nil => simp [switches]
  | cons b l2 =>
    have : switches (a :: b :: l2) = (if a = b then 0 else 1) + switches (b :: l2) :=
      rfl
    rw [this, h]
    split <;> omega

theorem owner_some_of_crit {s : CState} {t : Bool} (hInv : Inv s)
    (h : InCrit (pcOf s t)) : s.owner = some t := by
  cases ho : s.owner with
  | none =>
    cases t
    · exact absurd h (hInv.2 ho).1
    · exact absurd h (hInv.2 ho).2
  | some u =>
    by_cases hu : u = t
    · rw [hu]
    · have hnc := (hInv.1 u ho).2
      rw [bool_ne_imp u t hu] at hnc
      exact absurd h hnc

theorem Inv_update_noncrit {s : CState} {t : Bool} {p : Nat} (hInv : Inv s)
    (hp : ¬ InCrit p) (ht : ¬ InCrit (pcOf s t)) : Inv (setPc s t p) := by
  constructor
  · intro u hu
    rw [owner_setPc] at hu
    have hut : u ≠ t := by
      intro he; subst he; exact ht (hInv.1 u hu).1
    constructor
    · rw [pcOf_setPc]
      rw [if_neg hut]
      exact (hInv.1 u hu).1
    · rw [pcOf_setPc]
      split
      · exact hp
      · exact (hInv.1 u hu).2
  · intro h0
    rw [owner_setPc] at h0
    constructor
    · rw [pcOf_setPc]
      split
      · exact hp
      · exact (hInv.2 h0).1
    · rw [pcOf_setPc]
      split
      · exact hp
      · exact (hInv.2 h0).2

theorem Inv_update_crit {s : CState} {t : Bool} {p : Nat} (hInv : Inv s)
    (ho : s.owner = some t) (hp : InCrit p) : Inv (setPc s t p) := by
  constructor
  · intro u hu
    rw [owner_setPc, ho] at hu
    obtain rfl : t = u := by injection hu
    constructor
    · rw [pcOf_setPc, if_pos rfl]
      exact hp
    · rw [pcOf_setPc]
      have hne : (!t) ≠ t := by cases t <;> decide
      rw [if_neg hne]
      exact (hInv.1 t ho).2
  · intro h0
    rw [owner_setPc, ho] at h0
    exact absurd h0 (by simp)

theorem Inv_lock {s : CState} {t : Bool} (hInv : Inv s)
    (ho : s.owner = none) : Inv (setOwner (setPc s t 4) (some t)) := by
  constructor
  · intro u hu
    rw [owner_setOwner] at hu
    obtain rfl : t = u := by injection hu
    constructor
    · rw [pcOf_setOwner, pcOf_setPc, if_pos rfl]
      exact ⟨by omega, by omega⟩
    · rw [pcOf_setOwner, pcOf_setPc]
      have hne : (!t) ≠ t := by cases t <;> decide
      rw [if_neg hne]
      cases t
      · exact (hInv.2 ho).2
      · exact (hInv.2 ho).1
  · intro h0
    rw [owner_setOwner] at h0
    exact absurd h0 (by simp)

theorem Inv_unlock {s : CState} {t : Bool} (hInv : Inv s)
    (ho : s.owner = some t) : Inv (setOwner (setPc s t 9) none) := by
  constructor
  · intro u hu
    rw [owner_setOwner] at hu
    exact absurd hu (by simp)
  · intro _
    have hother : ¬ InCrit (pcOf s (!t)) := (hInv.1 t ho).2
    constructor
    · rw [pcOf_setOwner, pcOf_setPc]
      split
      · intro hc; exact absurd hc.2 (by omega)
      · rename_i hne
        cases t
        · exact absurd rfl hne
        · simpa using hother
    · rw [pcOf_setOwner, pcOf_setPc]
      split
      · intro hc; exact absurd hc.2 (by omega)
      · rename_i hne
        cases t
        · simpa using hother
        · exact absurd rfl hne

theorem pcOf_le_setPc {s : CState} {t : Bool} {p : Nat}
    (h : pcOf s t ≤ p) : ∀ u, pcOf s u ≤ pcOf (setPc s t p) u := by
  intro u
  rw [pcOf_setPc]
  split
  · rename_i he; rw [he]; exact h
  · exact le_rfl

theorem bool_eq_not_of_ne (x t : Bool) (h : x ≠ t) : x = !t := by
  revert h; cases x <;> cases t <;> decide

theorem synthOf_cons_nonsynth (t : Bool) (a : CAct) (tr : List (Bool × CAct))
    (h : isSynth a = false) : synthOf ((t, a) :: tr) = synthOf tr := by
  simp [synthOf_cons, h]

theorem synthOf_cons_synth (t : Bool) (a : CAct) (tr : List (Bool × CAct))
    (h : isSynth a = true) : synthOf ((t, a) :: tr) = t :: synthOf tr := by
  simp [synthOf_cons, h]

/-- Invariant-based induction over schedules: from any state satisfying the
mutex invariant, (1) the synthesis steps of the produced trace switch
threads at most once, (2) if the mutex holder still has synthesis steps to
perform, the next synthesis step of the trace is its own, and (3) every
thread with a synthesis step in the trace still had one pending. -/
theorem synth_mutex : ∀ (sched : List Bool) (s : CState), Inv s →
    switches (synthOf (crun s sched)) ≤ 1 ∧
    (∀ t, s.owner = some t → pcOf s t ≤ 6 →
      ∀ u l, synthOf (crun s sched) = u :: l → u = t) ∧
    (∀ u, u ∈ synthOf (crun s sched) → pcOf s u ≤ 6)
  | [], s, _ => by
    refine ⟨by simp [crun, synthOf, switches], ?_, ?_⟩
    · intro t _ _ u l h
      simp [crun, synthOf] at h
    · intro u h
      simp [crun, synthOf] at h
  | t :: ts, s, hInv => by
    cases hstep : cstep s t with
    | none =>
      rw [crun_cons_none ts hstep]
      exact synth_mutex ts s hInv
    | some p =>
      obtain ⟨a, s'⟩ := p
      rw [crun_cons_some ts hstep]
      rcases hpc : pcOf s t with _ | _ | _ | _ | _ | _ | _ | _ | _ | m
      -- pc = 0 : openClip
      · simp [cstep, hpc] at hstep
        obtain ⟨ha, hs⟩ := hstep
        subst ha; subst hs
        have hInv2 : Inv (setPc s t 1) :=
          Inv_update_noncrit hInv (by decide) (by rw [hpc]; decide)
        obtain ⟨ih1, ih2, ih3⟩ := synth_mutex ts (setPc s t 1) hInv2
        rw [synthOf_cons_nonsynth t CAct.openClip _ rfl]
        refine ⟨ih1, ?_, ?_⟩
        · intro w hw hle v l hv
          have hwt : w ≠ t := by
            intro he; subst he
            have hc := (hInv.1 w hw).1
            rw [hpc] at hc
            exact absurd hc (by decide)
          exact ih2 w (by rw [owner_setPc]; exact hw)
            (by rw [pcOf_setPc, if_neg hwt]; exact hle) v l hv
        · intro w hw
          exact le_trans (pcOf_le_setPc (by rw [hpc]; omega) w) (ih3 w hw)
      -- pc = 1 : setClip
      · simp [cstep, hpc] at hstep
        obtain ⟨ha, hs⟩ := hstep
        subst ha; subst hs
        have hInv2 : Inv (setPc s t 2) :=
          Inv_update_noncrit hInv (by decide) (by rw [hpc]; decide)
        obtain ⟨ih1, ih2, ih3⟩ := synth_mutex ts (setPc s t 2) hInv2
        rw [synthOf_cons_nonsynth t CAct.setClip _ rfl]
        refine ⟨ih1, ?_, ?_⟩
        · intro w hw hle v l hv
          have hwt : w ≠ t := by
            intro he; subst he
            have hc := (hInv.1 w hw).1
            rw [hpc] at hc
            exact absurd hc (by decide)
          exact ih2 w (by rw [owner_setPc]; exact hw)
            (by rw [pcOf_setPc, if_neg hwt]; exact hle) v l hv
        · intro w hw
          exact le_trans (pcOf_le_setPc (by rw [hpc]; omega) w) (ih3 w hw)
      -- pc = 2 : sleepPre
      · simp [cstep, hpc] at hstep
        obtain ⟨ha, hs⟩ := hstep
        subst ha; subst hs
        have hInv2 : Inv (setPc s t 3) :=
          Inv_update_noncrit hInv (by decide) (by rw [hpc]; decide)
        obtain ⟨ih1, ih2, ih3⟩ := synth_mutex ts (setPc s t 3) hInv2
        rw [synthOf_cons_nonsynth t CAct.sleepPre _ rfl]
        refine ⟨ih1, ?_, ?_⟩
        · intro w hw hle v l hv
          have hwt : w ≠ t := by
            intro he; subst he
            have hc := (hInv.1 w hw).1
            rw [hpc] at hc
            exact absurd hc (by decide)
          exact ih2 w (by rw [owner_setPc]; exact hw)
            (by rw [pcOf_setPc, if_neg hwt]; exact hle) v l hv
        · intro w hw
          exact le_trans (pcOf_le_setPc (by rw [hpc]; omega) w) (ih3 w hw)
      -- pc = 3 : lockE (requires the mutex free)
      · cases how : s.owner with
        | none =>
          simp [cstep, hpc, how] at hstep
          obtain ⟨ha, hs⟩ := hstep
          subst ha; subst hs
          have hInv2 : Inv (setOwner (setPc s t 4) (some t)) :=
            Inv_lock hInv how
          obtain ⟨ih1, ih2, ih3⟩ :=
            synth_mutex ts (setOwner (setPc s t 4) (some t)) hInv2
          rw [synthOf_cons_nonsynth t CAct.lockE _ rfl]
          refine ⟨ih1, ?_, ?_⟩
          · intro w hw
            exact absurd hw (by simp)
          · intro w hw
            refine le_trans ?_ (ih3 w hw)
            rw [pcOf_setOwner, pcOf_setPc]
            split
            · rename_i he; rw [he, hpc]; omega
            · exact le_rfl
        | some w0 =>
          simp [cstep, hpc, how] at hstep
      -- pc = 4 : press
      · simp [cstep, hpc] at hstep
        obtain ⟨ha, hs⟩ := hstep
        subst ha; subst hs
        have howner : s.owner = some t :=
          owner_some_of_crit hInv (by rw [hpc]; exact ⟨by omega, by omega⟩)
        have hInv2 : Inv (setPc s t 5) :=
          Inv_update_crit hInv howner ⟨by omega, by omega⟩
        obtain ⟨ih1, ih2, ih3⟩ := synth_mutex ts (setPc s t 5) hInv2
        rw [synthOf_cons_synth t CAct.press _ rfl]
        refine ⟨?_, ?_, ?_⟩
        · cases hr : synthOf (crun (setPc s t 5) ts) with
          | nil => simp [switches]
          | cons v l =>
            have hv : v = t := ih2 t (by rw [owner_setPc]; exact howner)
              (by rw [pcOf_setPc, if_pos rfl]; omega) v l hr
            subst hv
            rw [switches_cons_self]
            rw [hr] at ih1
            exact ih1
        · intro w hw hle v l hv
          have htw : t = w := by
            rw [howner] at hw
            injection hw
          injection hv with h1 h2
          exact h1 ▸ htw
        · intro w hw
          rcases List.mem_cons.mp hw with he | hm
          · rw [he]; omega
          · exact le_trans (pcOf_le_setPc (by rw [hpc]; omega) w) (ih3 w hm)
      -- pc = 5 : click
      · simp [cstep, hpc] at hstep
        obtain ⟨ha, hs⟩ := hstep
        subst ha; subst hs
        have howner : s.owner = some t :=
          owner_some_of_crit hInv (by rw [hpc]; exact ⟨by omega, by omega⟩)
        have hInv2 : Inv (setPc s t 6) :=
          Inv_update_crit hInv howner ⟨by omega, by omega⟩
        obtain ⟨ih1, ih2, ih3⟩ := synth_mutex ts (setPc s t 6) hInv2
        rw [synthOf_cons_synth t CAct.click _ rfl]
        refine ⟨?_, ?_, ?_⟩
        · cases hr : synthOf (crun (setPc s t 6) ts) with
          | nil => simp [switches]
          | cons v l =>
            have hv : v = t := ih2 t (by rw [owner_setPc]; exact howner)
              (by rw [pcOf_setPc, if_pos rfl]) v l hr
            subst hv
            rw [switches_cons_self]
            rw [hr] at ih1
            exact ih1
        · intro w hw hle v l hv
          have htw : t = w := by
            rw [howner] at hw
            injection hw
          injection hv with h1 h2
          exact h1 ▸ htw
        · intro w hw
          rcases List.mem_cons.mp hw with he | hm
          · rw [he]; omega
          · exact le_trans (pcOf_le_setPc (by rw [hpc]; omega) w) (ih3 w hm)
      -- pc = 6 : release (the thread's last synthesis step)
      · simp [cstep, hpc] at hstep
        obtain ⟨ha, hs⟩ := hstep
        subst ha; subst hs
        have howner : s.owner = some t :=
          owner_some_of_crit hInv (by rw [hpc]; exact ⟨by omega, by omega⟩)
        have hInv2 : Inv (setPc s t 7) :=
          Inv_update_crit hInv howner ⟨by omega, by omega⟩
        obtain ⟨ih1, ih2, ih3⟩ := synth_mutex ts (setPc s t 7) hInv2
        rw [synthOf_cons_synth t CAct.release _ rfl]
        refine ⟨?_, ?_, ?_⟩
        · have hall : ∀ x ∈ synthOf (crun (setPc s t 7) ts), x = !t := by
            intro x hx
            have hx6 := ih3 x hx
            by_cases hxt : x = t
            · rw [hxt, pcOf_setPc, if_pos rfl] at hx6
              exact absurd hx6 (by omega)
            · exact bool_eq_not_of_ne x t hxt
          exact switches_cons_of_zero t _ (switches_of_all_eq (!t) _ hall)
        · intro w hw hle v l hv
          have htw : t = w := by
            rw [howner] at hw
            injection hw
          injection hv with h1 h2
          exact h1 ▸ htw
        · intro w hw
          rcases List.mem_cons.mp hw with he | hm
          · rw [he]; omega
          · exact le_trans (pcOf_le_setPc (by rw [hpc]; omega) w) (ih3 w hm)
      -- pc = 7 : sleepPost (still holding the mutex)
      · simp [cstep, hpc] at hstep
        obtain ⟨ha, hs⟩ := hstep
        subst ha; subst hs
        have howner : s.owner = some t :=
          owner_some_of_crit hInv (by rw [hpc]; exact ⟨by omega, by omega⟩)
        have hInv2 : Inv (setPc s t 8) :=
          Inv_update_crit hInv howner ⟨by omega, by omega⟩
        obtain ⟨ih1, ih2, ih3⟩ := synth_mutex ts (setPc s t 8) hInv2
        rw [synthOf_cons_nonsynth t CAct.sleepPost _ rfl]
        refine ⟨ih1, ?_, ?_⟩
        · intro w hw hle v l hv
          have htw : t = w := by
            rw [howner] at hw
            injection hw
          rw [← htw, hpc] at hle
          exact absurd hle (by omega)
        · intro w hw
          exact le_trans (pcOf_le_setPc (by rw [hpc]; omega) w) (ih3 w hw)
      -- pc = 8 : unlockE (performed by the holder)
      · by_cases how : s.owner = some t
        · simp [cstep, hpc, how] at hstep
          obtain ⟨ha, hs⟩ := hstep
          subst ha; subst hs
          have hInv2 : Inv (setOwner (setPc s t 9) none) :=
            Inv_unlock hInv how
          obtain ⟨ih1, ih2, ih3⟩ :=
            synth_mutex ts (setOwner (setPc s t 9) none) hInv2
          rw [synthOf_cons_nonsynth t CAct.unlockE _ rfl]
          refine ⟨ih1, ?_, ?_⟩
          · intro w hw hle v l hv
            have htw : t = w := by
              rw [how] at hw
              injection hw
            rw [← htw, hpc] at hle
            exact absurd hle (by omega)
          · intro w hw
            refine le_trans ?_ (ih3 w hw)
            rw [pcOf_setOwner, pcOf_setPc]
            split
            · rename_i he; rw [he, hpc]; omega
            · exact le_rfl
        · simp [cstep, hpc, how] at hstep
      -- pc ≥ 9 : thread finished
      · simp [cstep, hpc] at hstep

/-- Counterexample to claim C4 as stated.  The exhibited schedule is a valid
execution in which the later caller (`true`) performs its clipboard open and
write (trace positions 3–4) after the earlier caller (`false`) has written
the clipboard but long before that earlier injection — its keystrokes and
both sleeps — completes (the earlier caller's next step, position 5, is
still the pre-lock sleep).  So the later caller did not block until the
previous injection completed, refuting "the singleton lock serializes all
injection calls process-wide"; the trace's thread sequence switches twice,
i.e. the two calls interleave.  (This is the clipboard race: the first call
will now paste the second call's text.) -/
theorem inject_calls_interleave_cex :
    crun cInit [false, false, true, true, false] =
      [(false, CAct.openClip), (false, CAct.setClip), (true, CAct.openClip),
        (true, CAct.setClip), (false, CAct.sleepPre)] ∧
    ¬ switches ((crun cInit [false, false, true, true, false]).map Prod.fst) ≤ 1 :=
  ⟨rfl, by decide⟩

/-- Claim C4, amended: the singleton lock serializes only the section it
protects — from lock acquisition in `get_enigo` through the keystrokes and
the trailing sleep to the guard drop.  First conjunct: in every interleaving
of two `inject_text` calls the keystroke-synthesis steps of the two
invocations do not interleave (the thread sequence of the synthesis steps
switches at most once, i.e. one invocation's block completes before the
other's begins).  Second conjunct: the clipboard open/write and the pre-lock
sleep run outside the lock, so there is an interleaving in which the calls
as a whole are not serialized — a later caller need not block until the
previous injection completes. -/
theorem inject_synth_serialized :
    (∀ sched : List Bool, switches (synthOf (crun cInit sched)) ≤ 1) ∧
    (∃ sched : List Bool,
      ¬ switches ((crun cInit sched).map Prod.fst) ≤ 1) :=
  ⟨fun sched =>
    (synth_mutex sched cInit
      ⟨fun t h => by simp [cInit] at h,
        fun _ => ⟨by decide, by decide⟩⟩).1,
    ⟨[false, false, true, true, false], by decide⟩⟩

end OpenWhisper
